import Mathlib

/-!
Verification of Jucer2CMake (main.cpp): a shallow embedding of the
translator from .jucer project files to CMake directives, together with
theorems about the string utilities, the property formatter, the
file-group traversal and the export-target translation.
-/

namespace Jucer2CMake

/-- C++ std::string values are modelled as lists of characters. -/
abbrev Str := List Char

/-- Bridge from a Lean string literal to the character-list model. -/
def s2l (s : String) : Str := s.data

/-- Does the first list occur at the start of the second?
(models std::string prefix matching used by std::string::find). -/
def leadsWith : Str → Str → Bool
  | [], _ => true
  | _ :: _, [] => false
  | a :: ps, b :: ss => a == b && leadsWith ps ss

/-- `escape` from main.cpp (lines 38-49): scan the value left to right with
`find_first_of`; at each character belonging to `charsToEscape`, insert a
backslash before it and resume the scan two positions further (just past the
inserted backslash and the escaped character), so inserted backslashes are
never re-processed. -/
def escape (charsToEscape : Str) : Str → Str
  | [] => []
  | c :: rest =>
    if c ∈ charsToEscape then '\\' :: c :: escape charsToEscape rest
    else c :: escape charsToEscape rest

/-- `join` from main.cpp (lines 52-66): empty vector gives the empty string,
otherwise `std::accumulate` starting from the first element, appending
`sep + element` for each further element. -/
def join (sep : Str) (elements : List Str) : Str :=
  match elements with
  | [] => []
  | x :: xs => xs.foldl (fun sum elm => sum ++ sep ++ elm) x

/-- Index of the first occurrence of `sep` in `v` (std::string::find):
`none` models std::string::npos.  As in C++, the empty needle is found at
position 0 of any string, including the empty one. -/
def findSub (sep : Str) : Str → Option Nat
  | [] => if leadsWith sep [] then some 0 else none
  | c :: rest =>
    if leadsWith sep (c :: rest) then some 0
    else (findSub sep rest).map (fun i => i + 1)

theorem leadsWith_length (p : Str) : ∀ s : Str, leadsWith p s = true → p.length ≤ s.length := by
  induction p with
  | nil => intro s _; simp
  | cons a ps ih =>
    intro s h
    cases s with
    | nil => simp [leadsWith] at h
    | cons b ss =>
      simp only [leadsWith, Bool.and_eq_true] at h
      simpa using ih ss h.2

theorem leadsWith_eq_append (p : Str) :
    ∀ s : Str, leadsWith p s = true → s = p ++ s.drop p.length := by
  induction p with
  | nil => intro s _; simp
  | cons a ps ih =>
    intro s h
    cases s with
    | nil => simp [leadsWith] at h
    | cons b ss =>
      simp only [leadsWith, Bool.and_eq_true, beq_iff_eq] at h
      obtain ⟨rfl, h2⟩ := h
      simpa using ih ss h2

theorem findSub_leadsWith (sep : Str) :
    ∀ (v : Str) (i : Nat), findSub sep v = some i → leadsWith sep (v.drop i) = true := by
  intro v
  induction v with
  | nil =>
    intro i h
    simp only [findSub] at h
    by_cases hl : leadsWith sep [] = true
    · simp [hl] at h
      simpa [← h.symm] using hl
    · simp [hl] at h
  | cons c rest ih =>
    intro i h
    simp only [findSub] at h
    by_cases hl : leadsWith sep (c :: rest) = true
    · simp [hl] at h
      subst h
      simpa using hl
    · simp [hl, Option.map_eq_some'] at h
      obtain ⟨j, hj, rfl⟩ := h
      simpa using ih j hj

/-- `split` from main.cpp (lines 69-82): repeatedly find `sep`, push the
text before it, and continue after it; finally push the remaining tail.
With an empty separator the C++ loop never advances `start` and never
terminates; the guard branch below is unreachable for the program's actual
call sites ("\n", "/"), whose separators are non-empty. -/
def split (sep : Str) (v : Str) : List Str :=
  match h : findSub sep v with
  | none => [v]
  | some i =>
    if hsep : sep.length = 0 then [v]
    else v.take i :: split sep (v.drop (i + sep.length))
termination_by v.length
decreasing_by
  have hlw := findSub_leadsWith sep v i h
  have hle := leadsWith_length sep (v.drop i) hlw
  simp only [List.length_drop] at hle ⊢
  omega

theorem split_none (sep v : Str) (h : findSub sep v = none) : split sep v = [v] := by
  rw [split.eq_def]
  split
  · rfl
  · rename_i i heq
    rw [h] at heq
    cases heq

theorem split_some (sep v : Str) (i : Nat) (h : findSub sep v = some i) (hsep : sep ≠ []) :
    split sep v = v.take i :: split sep (v.drop (i + sep.length)) := by
  rw [split.eq_def]
  split
  · rename_i heq
    rw [h] at heq
    cases heq
  · rename_i i' heq
    rw [h] at heq
    injection heq with hi
    subst hi
    split
    · rename_i h0
      exact absurd (List.length_eq_zero.mp h0) hsep
    · rfl

theorem split_ne_nil (sep v : Str) : split sep v ≠ [] := by
  rw [split.eq_def]
  split
  · simp
  · split
    · simp
    · simp

theorem findSub_nil_of_ne (sep : Str) (hsep : sep ≠ []) : findSub sep [] = none := by
  cases sep with
  | nil => exact absurd rfl hsep
  | cons a ps => simp [findSub, leadsWith]

theorem split_nil (sep : Str) (hsep : sep ≠ []) : split sep ([] : Str) = [[]] :=
  split_none sep [] (findSub_nil_of_ne sep hsep)

theorem foldl_join_init (sep : Str) :
    ∀ (l : List Str) (a b : Str),
      l.foldl (fun sum elm => sum ++ sep ++ elm) (a ++ b)
        = a ++ l.foldl (fun sum elm => sum ++ sep ++ elm) b := by
  intro l
  induction l with
  | nil => intro a b; simp
  | cons y ys ih =>
    intro a b
    simp only [List.foldl_cons]
    rw [List.append_assoc (a ++ b) sep y, List.append_assoc a b (sep ++ y),
      ← List.append_assoc b sep y, ih a (b ++ sep ++ y)]

theorem join_cons_cons (sep x y : Str) (ys : List Str) :
    join sep (x :: y :: ys) = x ++ sep ++ join sep (y :: ys) := by
  show (y :: ys).foldl (fun sum elm => sum ++ sep ++ elm) x = _
  simp only [List.foldl_cons, join]
  rw [List.append_assoc x sep y, foldl_join_init sep ys x (sep ++ y),
    foldl_join_init sep ys sep y, ← List.append_assoc]

theorem join_split_eq (sep : Str) (hsep : sep ≠ []) :
    ∀ (n : Nat) (v : Str), v.length ≤ n → join sep (split sep v) = v := by
  intro n
  induction n with
  | zero =>
    intro v hv
    have hv0 : v = [] := List.length_eq_zero.mp (Nat.le_zero.mp hv)
    subst hv0
    rw [split_nil sep hsep]
    simp [join]
  | succ n ih =>
    intro v hv
    rcases h : findSub sep v with _ | i
    · rw [split_none sep v h]
      simp [join]
    · rw [split_some sep v i h hsep]
      have hlw := findSub_leadsWith sep v i h
      have hdrop : v.drop i = sep ++ v.drop (i + sep.length) := by
        have h2 := leadsWith_eq_append sep (v.drop i) hlw
        rwa [List.drop_drop] at h2
      have hlen : (v.drop (i + sep.length)).length ≤ n := by
        have hsl : 1 ≤ sep.length := by
          cases sep with
          | nil => exact absurd rfl hsep
          | cons a ps => simp
        have hile := leadsWith_length sep (v.drop i) hlw
        simp only [List.length_drop] at hile ⊢
        omega
      have ihrest := ih (v.drop (i + sep.length)) hlen
      rcases hsr : split sep (v.drop (i + sep.length)) with _ | ⟨y, ys⟩
      · exact absurd hsr (split_ne_nil sep _)
      · rw [join_cons_cons]
        rw [← hsr, ihrest]
        calc v.take i ++ sep ++ v.drop (i + sep.length)
            = v.take i ++ (sep ++ v.drop (i + sep.length)) := by
              rw [List.append_assoc]
          _ = v.take i ++ v.drop i := by rw [← hdrop]
          _ = v := List.take_append_drop i v

/-- C10: for every non-empty separator `sep` and every string `v`,
`join sep (split sep v) = v`; `split` always returns at least one element,
and splitting the empty string yields the one-element list containing the
empty string. -/
theorem split_join_roundtrip (sep v : Str) (hsep : sep ≠ []) :
    join sep (split sep v) = v ∧ split sep v ≠ [] ∧ split sep ([] : Str) = [[]] :=
  ⟨join_split_eq sep hsep v.length v le_rfl, split_ne_nil sep v, split_nil sep hsep⟩

theorem split_join_roundtrip_witness :
    s2l "/" ≠ []
      ∧ (join (s2l "/") (split (s2l "/") (s2l "a/b")) = s2l "a/b"
          ∧ split (s2l "/") (s2l "a/b") ≠ [] ∧ split (s2l "/") ([] : Str) = [[]]) :=
  ⟨by decide, split_join_roundtrip (s2l "/") (s2l "a/b") (by decide)⟩

theorem escape_quote_preceded (v : Str) :
    ∀ a b : Str, escape ['"'] v = a ++ '"' :: b → ∃ a', a = a' ++ ['\\'] := by
  induction v with
  | nil =>
    intro a b h
    simp [escape] at h
  | cons c rest ih =>
    intro a b h
    by_cases hc : c = '"'
    · subst hc
      simp only [escape, if_pos (List.mem_singleton.mpr rfl)] at h
      cases a with
      | nil => simp at h
      | cons a0 a1 =>
        simp only [List.cons_append, List.cons.injEq] at h
        obtain ⟨ha0, h⟩ := h
        cases a1 with
        | nil =>
          subst ha0
          exact ⟨[], by simp⟩
        | cons a2 a3 =>
          simp only [List.cons_append, List.cons.injEq] at h
          obtain ⟨ha2, h⟩ := h
          obtain ⟨a', ha'⟩ := ih a3 b h
          subst ha0; subst ha2; subst ha'
          exact ⟨'\\' :: '"' :: a', by simp⟩
    · have hcm : c ∉ ['"'] := by simpa using hc
      simp only [escape, if_neg hcm] at h
      cases a with
      | nil =>
        simp at h
        exact absurd h.1 hc
      | cons a0 a1 =>
        simp only [List.cons_append, List.cons.injEq] at h
        obtain ⟨ha0, h⟩ := h
        obtain ⟨a', ha'⟩ := ih a1 b h
        subst ha0; subst ha'
        exact ⟨c :: a', by simp⟩

theorem escape_quote_count (v : Str) :
    (escape ['"'] v).count '\\' = v.count '\\' + v.count '"' := by
  induction v with
  | nil => simp [escape]
  | cons c rest ih =>
    by_cases hc : c = '"'
    · subst hc
      simp only [escape, if_pos (List.mem_singleton.mpr rfl)]
      rw [List.count_cons, List.count_cons, List.count_cons, List.count_cons, ih]
      simp
      omega
    · have hcm : c ∉ ['"'] := by simpa using hc
      simp only [escape, if_neg hcm]
      rw [List.count_cons, List.count_cons, List.count_cons, ih]
      have : (c == '"') = false := by simpa using hc
      simp [this]
      omega

theorem escape_quote_noop (s : Str) (h : '"' ∉ s) : escape ['"'] s = s := by
  induction s with
  | nil => rfl
  | cons c rest ih =>
    simp only [List.mem_cons, not_or] at h
    have hcm : c ∉ ['"'] := by
      simp only [List.mem_singleton]
      exact fun hcc => h.1 hcc.symm
    simp only [escape, if_neg hcm]
    rw [ih h.2]

/-- C8: escaping with the quote character in the escape set (the call
`escape("\"", value)` of getSetting) puts a backslash immediately before
every quote of the output; exactly one backslash is inserted per quote (the
count of backslashes grows by exactly the count of quotes, and since the
backslash is not in the escape set no inserted backslash is itself escaped);
and a second pass over a string containing no further special characters is
the identity. -/
theorem escape_quote_spec (v : Str) (hv : '"' ∈ v) :
    (∀ a b : Str, escape ['"'] v = a ++ '"' :: b → ∃ a', a = a' ++ ['\\'])
      ∧ (escape ['"'] v).count '\\' = v.count '\\' + v.count '"'
      ∧ ∀ s : Str, '"' ∉ s → escape ['"'] s = s :=
  ⟨escape_quote_preceded v, escape_quote_count v, escape_quote_noop⟩

theorem escape_quote_spec_witness :
    '"' ∈ s2l "a\"b"
      ∧ ((∀ a b : Str, escape ['"'] (s2l "a\"b") = a ++ '"' :: b → ∃ a', a = a' ++ ['\\'])
          ∧ (escape ['"'] (s2l "a\"b")).count '\\'
              = (s2l "a\"b").count '\\' + (s2l "a\"b").count '"'
          ∧ ∀ s : Str, '"' ∉ s → escape ['"'] s = s) :=
  ⟨by decide, escape_quote_spec (s2l "a\"b") (by decide)⟩

/-- A juce::ValueTree as produced by ValueTree::fromXml on a .jucer file:
a type tag, string-valued named properties (the XML attributes, in order),
and an ordered list of children. -/
inductive VTree where
  | node (type : Str) (props : List (Str × Str)) (children : List VTree)

def typeOf : VTree → Str
  | .node t _ _ => t

def propsOf : VTree → List (Str × Str)
  | .node _ p _ => p

def childrenOf : VTree → List VTree
  | .node _ _ c => c

def lookupProp : List (Str × Str) → Str → Option Str
  | [], _ => none
  | (k, val) :: rest, name => if k == name then some val else lookupProp rest name

/-- ValueTree::getProperty: `none` models the void var returned for an
absent property. -/
def getProp (t : VTree) (name : Str) : Option Str := lookupProp (propsOf t) name

/-- ValueTree::hasProperty. -/
def hasProperty (t : VTree) (name : Str) : Bool := (getProp t name).isSome

/-- getProperty(...).toString(): the void var of an absent property prints
as the empty string. -/
def getPropString (t : VTree) (name : Str) : Str := (getProp t name).getD []

/-- ValueTree::hasType. -/
def hasType (t : VTree) (name : Str) : Bool := typeOf t == name

/-- Accumulate the leading decimal digits (juce String::getIntValue stops at
the first non-digit). -/
def digitsValue (acc : Nat) : Str → Nat
  | [] => acc
  | c :: rest => if c.isDigit then digitsValue (acc * 10 + (c.toNat - 48)) rest else acc

/-- juce String::getIntValue: skip leading whitespace, optional minus sign,
then read leading decimal digits (0 when there are none). -/
def getIntValue (s : Str) : Int :=
  match s.dropWhile Char.isWhitespace with
  | '-' :: rest => - Int.ofNat (digitsValue 0 rest)
  | t => Int.ofNat (digitsValue 0 t)

/-- `int{valueTree.getProperty(name)}`: the void var of an absent property
converts to 0; a string-valued var converts via getIntValue. -/
def getPropInt (t : VTree) (name : Str) : Int :=
  match getProp t name with
  | none => 0
  | some s => getIntValue s

/-- `getSetting` from main.cpp (lines 85-99): when the property exists and
its string value is non-empty, emit `TAG "escaped-value"` with quotes
backslash-escaped; otherwise emit the commented placeholder `# TAG`. -/
def getSetting (valueTree : VTree) (cmakeTag : Str) (property : Str) : Str :=
  if hasProperty valueTree property then
    let value := getPropString valueTree property
    if value = [] then s2l "# " ++ cmakeTag
    else cmakeTag ++ s2l " \"" ++ escape ['"'] value ++ s2l "\""
  else s2l "# " ++ cmakeTag

/-- Spec-side description of quote escaping: each quote character of the
value is replaced by backslash-quote, all other characters are kept. -/
def quoteEscapedSpec (v : Str) : Str :=
  v.flatMap (fun c => if c = '"' then ['\\', c] else [c])

theorem escape_quote_eq_spec (v : Str) : escape ['"'] v = quoteEscapedSpec v := by
  induction v with
  | nil => rfl
  | cons c rest ih =>
    by_cases hc : c = '"'
    · subst hc
      simp [escape, quoteEscapedSpec, List.flatMap_cons] at ih ⊢
      exact ih
    · have hcm : c ∉ ['"'] := by simpa using hc
      simp only [escape, if_neg hcm, quoteEscapedSpec, List.flatMap_cons, if_neg hc] at ih ⊢
      simpa using ih

/-- C5: the property formatter returns `TAG "escaped-value"` (each quote of
the value backslash-escaped) exactly when the property exists with a
non-empty string value, and the placeholder `# TAG` when the property is
absent or its value is empty; being a total function it never signals an
error. -/
theorem getSetting_spec (valueTree : VTree) (cmakeTag property : Str)
    (hprop : hasProperty valueTree property = true) :
    (getPropString valueTree property ≠ [] →
        getSetting valueTree cmakeTag property
          = cmakeTag ++ s2l " \"" ++ quoteEscapedSpec (getPropString valueTree property)
              ++ s2l "\"")
      ∧ (getPropString valueTree property = [] →
          getSetting valueTree cmakeTag property = s2l "# " ++ cmakeTag)
      ∧ ∀ t : VTree, hasProperty t property = false →
          getSetting t cmakeTag property = s2l "# " ++ cmakeTag := by
  refine ⟨fun hne => ?_, fun heq => ?_, fun t ht => ?_⟩
  · rw [getSetting, if_pos hprop]
    simp only [if_neg hne]
    rw [escape_quote_eq_spec]
  · rw [getSetting, if_pos hprop]
    simp only [if_pos heq]
  · rw [getSetting, if_neg (by simp [ht])]

theorem getSetting_spec_witness :
    hasProperty (VTree.node (s2l "X") [(s2l "name", s2l "a\"b")] []) (s2l "name") = true
      ∧ ((getPropString (VTree.node (s2l "X") [(s2l "name", s2l "a\"b")] []) (s2l "name") ≠ [] →
            getSetting (VTree.node (s2l "X") [(s2l "name", s2l "a\"b")] []) (s2l "PROJECT_NAME")
                (s2l "name")
              = s2l "PROJECT_NAME" ++ s2l " \""
                  ++ quoteEscapedSpec
                      (getPropString (VTree.node (s2l "X") [(s2l "name", s2l "a\"b")] [])
                        (s2l "name"))
                  ++ s2l "\"")
          ∧ (getPropString (VTree.node (s2l "X") [(s2l "name", s2l "a\"b")] []) (s2l "name") = [] →
              getSetting (VTree.node (s2l "X") [(s2l "name", s2l "a\"b")] []) (s2l "PROJECT_NAME")
                  (s2l "name")
                = s2l "# " ++ s2l "PROJECT_NAME")
          ∧ ∀ t : VTree, hasProperty t (s2l "name") = false →
              getSetting t (s2l "PROJECT_NAME") (s2l "name") = s2l "# " ++ s2l "PROJECT_NAME") :=
  ⟨by decide,
    getSetting_spec (VTree.node (s2l "X") [(s2l "name", s2l "a\"b")] []) (s2l "PROJECT_NAME")
      (s2l "name") (by decide)⟩

/-- juce::File::hasFileExtension("cpp") on
createFileWithoutCheckingPath(path): the path ends (case-insensitively)
with "cpp" and the character just before that suffix is a dot. -/
def hasFileExtensionCpp (path : Str) : Bool :=
  leadsWith (((s2l "cpp").map Char.toLower).reverse) ((path.map Char.toLower).reverse)
    && decide (4 ≤ path.length) && (path.getD (path.length - 4) ' ' == '.')

/-- One emitted block of the jucer_project_files section: either a
`jucer_project_files("group")` call listing file paths (with the paths of
the trailing `set_source_files_properties(... HEADER_FILE_ONLY TRUE)` call,
possibly empty) or a `jucer_project_resources("group")` call. -/
inductive Block where
  | files (fullGroupName : Str) (filePaths : List Str) (doNotCompileFilePaths : List Str)
  | resources (fullGroupName : Str) (resourcePaths : List Str)
deriving DecidableEq

/-- The group name a block is keyed by. -/
def blockName : Block → Str
  | .files n _ _ => n
  | .resources n _ => n

/-- `writeFileGroups` from main.cpp (lines 270-313): one files block when
the file list is non-empty (carrying the header-only paths emitted inside
it when they are non-empty), then one resources block when the resource
list is non-empty. -/
def writeFileGroups (fullGroupName : Str) (filePaths doNotCompileFilePaths resourcePaths :
    List Str) : List Block :=
  (if filePaths = [] then [] else [Block.files fullGroupName filePaths doNotCompileFilePaths])
    ++ (if resourcePaths = [] then [] else [Block.resources fullGroupName resourcePaths])

theorem sizeOf_childrenOf_lt (g : VTree) : sizeOf (childrenOf g) < sizeOf g := by
  cases g with
  | node t p c =>
    simp only [childrenOf, VTree.node.sizeOf_spec]
    omega

mutual

/-- `processGroup` from main.cpp (lines 317-362): push the group's name on
the stack, compute the full group name by `/`-joining the stack, then walk
the children with empty accumulators.  (Popping the name at the end of the
C++ lambda is implicit here: the stack is passed by value.) -/
def processGroup (groupNames : List Str) (group : VTree) : List Block :=
  processChildren (groupNames ++ [getPropString group (s2l "name")])
    (join (s2l "/") (groupNames ++ [getPropString group (s2l "name")]))
    (childrenOf group) [] [] []
termination_by sizeOf group
decreasing_by
  exact sizeOf_childrenOf_lt group

/-- The loop body of `processGroup` over the remaining children, with the
three accumulators: a FILE child is appended to the resource accumulator
when its resource property converts to 1, otherwise to the file accumulator
(and additionally to the do-not-compile accumulator when its path has the
cpp extension and its compile property converts to 0); any other child
flushes the accumulators as blocks and recurses into it as a group. -/
def processChildren (groupNames : List Str) (fullGroupName : Str) :
    List VTree → List Str → List Str → List Str → List Block
  | [], filePaths, doNotCompileFilePaths, resourcePaths =>
    writeFileGroups fullGroupName filePaths doNotCompileFilePaths resourcePaths
  | fileOrGroup :: rest, filePaths, doNotCompileFilePaths, resourcePaths =>
    if hasType fileOrGroup (s2l "FILE") then
      let path := getPropString fileOrGroup (s2l "file")
      if getPropInt fileOrGroup (s2l "resource") = 1 then
        processChildren groupNames fullGroupName rest
          filePaths doNotCompileFilePaths (resourcePaths ++ [path])
      else
        processChildren groupNames fullGroupName rest
          (filePaths ++ [path])
          (if hasFileExtensionCpp path && getPropInt fileOrGroup (s2l "compile") = 0 then
            doNotCompileFilePaths ++ [path]
          else doNotCompileFilePaths)
          resourcePaths
    else
      writeFileGroups fullGroupName filePaths doNotCompileFilePaths resourcePaths
        ++ processGroup groupNames fileOrGroup
        ++ processChildren groupNames fullGroupName rest [] [] []
termination_by cs _ _ _ => sizeOf cs
decreasing_by
  · simp only [List.cons.sizeOf_spec]
    omega
  · simp only [List.cons.sizeOf_spec]
    omega
  · simp only [List.cons.sizeOf_spec]
    omega
  · simp only [List.cons.sizeOf_spec]
    omega

end

/-- Is this child a FILE node (the traversal treats every other child as a
nested group)? -/
def isFileNode (c : VTree) : Bool := hasType c (s2l "FILE")

/-- The `file` property of a FILE node. -/
def filePathOf (c : VTree) : Str := getPropString c (s2l "file")

/-- Does the `resource` property of the node convert to the integer 1? -/
def isResourceEntry (c : VTree) : Bool := decide (getPropInt c (s2l "resource") = 1)

/-- Does the node's path have the cpp extension while its `compile`
property converts to the integer 0 (which is also the case when the
property is absent)? -/
def isDncEntry (c : VTree) : Bool :=
  hasFileExtensionCpp (filePathOf c) && decide (getPropInt c (s2l "compile") = 0)

/-- Declarative contents of the standard file list accumulated over a run
of FILE children: paths of the non-resource FILE nodes, in order. -/
def srcPathsOf (cs : List VTree) : List Str :=
  (cs.filter (fun c => isFileNode c && !isResourceEntry c)).map filePathOf

/-- Declarative contents of the header-only (do-not-compile) list: paths of
the non-resource FILE nodes with cpp extension and compile converting
to 0. -/
def dncPathsOf (cs : List VTree) : List Str :=
  (cs.filter (fun c => isFileNode c && !isResourceEntry c && isDncEntry c)).map filePathOf

/-- Declarative contents of the resource list: paths of the FILE nodes
whose resource property converts to 1. -/
def resPathsOf (cs : List VTree) : List Str :=
  (cs.filter (fun c => isFileNode c && isResourceEntry c)).map filePathOf

theorem processGroup_unfold (stack : List Str) (group : VTree) :
    processGroup stack group
      = processChildren (stack ++ [getPropString group (s2l "name")])
          (join (s2l "/") (stack ++ [getPropString group (s2l "name")]))
          (childrenOf group) [] [] [] := by
  rw [processGroup]

theorem processChildren_nil (stack : List Str) (fn : Str) (f d r : List Str) :
    processChildren stack fn [] f d r = writeFileGroups fn f d r := by
  rw [processChildren]

theorem processChildren_group_cons (stack : List Str) (fn : Str) (g : VTree)
    (rest : List VTree) (f d r : List Str) (hg : isFileNode g = false) :
    processChildren stack fn (g :: rest) f d r
      = writeFileGroups fn f d r ++ processGroup stack g
          ++ processChildren stack fn rest [] [] [] := by
  rw [processChildren]
  rw [if_neg (by simpa [isFileNode] using hg)]

theorem processChildren_file_cons (stack : List Str) (fn : Str) (c : VTree)
    (rest : List VTree) (f d r : List Str) (hc : isFileNode c = true) :
    processChildren stack fn (c :: rest) f d r
      = if isResourceEntry c = true then
          processChildren stack fn rest f d (r ++ [filePathOf c])
        else
          processChildren stack fn rest (f ++ [filePathOf c])
            (if isDncEntry c = true then d ++ [filePathOf c] else d) r := by
  rw [processChildren]
  rw [if_pos (by simpa [isFileNode] using hc)]
  by_cases hres : getPropInt c (s2l "resource") = 1
  · rw [if_pos hres]
    rw [if_pos (show isResourceEntry c = true from by simpa [isResourceEntry] using hres)]
    rfl
  · rw [if_neg hres]
    rw [if_neg (show ¬isResourceEntry c = true from by simpa [isResourceEntry] using hres)]
    rfl

theorem blockName_writeFileGroups (fn : Str) (f d r : List Str) (b : Block)
    (hb : b ∈ writeFileGroups fn f d r) : blockName b = fn := by
  rcases List.mem_append.mp hb with h | h
  · by_cases hf : f = []
    · simp [writeFileGroups, hf] at h
    · simp only [writeFileGroups, if_neg hf, List.mem_singleton] at h
      subst h
      rfl
  · by_cases hr : r = []
    · simp [writeFileGroups, hr] at h
    · simp only [writeFileGroups, if_neg hr, List.mem_singleton] at h
      subst h
      rfl

theorem processChildren_fileRun (stack : List Str) (fn : Str) :
    ∀ (cs₁ : List VTree), (∀ c ∈ cs₁, isFileNode c = true) →
      ∀ (rest : List VTree) (f d r : List Str),
        processChildren stack fn (cs₁ ++ rest) f d r
          = processChildren stack fn rest (f ++ srcPathsOf cs₁) (d ++ dncPathsOf cs₁)
              (r ++ resPathsOf cs₁) := by
  intro cs₁
  induction cs₁ with
  | nil =>
    intro _ rest f d r
    simp [srcPathsOf, dncPathsOf, resPathsOf]
  | cons c cs ih =>
    intro hall rest f d r
    have hc : isFileNode c = true := hall c (List.mem_cons_self c cs)
    have hcs : ∀ x ∈ cs, isFileNode x = true := fun x hx => hall x (List.mem_cons_of_mem c hx)
    rw [List.cons_append, processChildren_file_cons stack fn c (cs ++ rest) f d r hc]
    by_cases hres : isResourceEntry c = true
    · rw [if_pos hres, ih hcs]
      simp [srcPathsOf, dncPathsOf, resPathsOf, List.filter_cons, hc, hres, List.append_assoc]
    · rw [if_neg hres, ih hcs]
      have hres' : isResourceEntry c = false := Bool.eq_false_iff.mpr hres
      by_cases hdnc : isDncEntry c = true
      · rw [if_pos hdnc]
        simp [srcPathsOf, dncPathsOf, resPathsOf, List.filter_cons, hc, hres', hdnc,
          List.append_assoc]
      · have hdnc' : isDncEntry c = false := Bool.eq_false_iff.mpr hdnc
        rw [if_neg hdnc]
        simp [srcPathsOf, dncPathsOf, resPathsOf, List.filter_cons, hc, hres', hdnc',
          List.append_assoc]

theorem processGroup_allFiles (stack : List Str) (tp : Str) (props : List (Str × Str))
    (cs : List VTree) (hall : ∀ c ∈ cs, isFileNode c = true) :
    processGroup stack (VTree.node tp props cs)
      = writeFileGroups
          (join (s2l "/") (stack ++ [getPropString (VTree.node tp props cs) (s2l "name")]))
          (srcPathsOf cs) (dncPathsOf cs) (resPathsOf cs) := by
  rw [processGroup_unfold]
  rw [show childrenOf (VTree.node tp props cs) = cs from rfl]
  have h0 : processChildren (stack ++ [getPropString (VTree.node tp props cs) (s2l "name")])
      (join (s2l "/") (stack ++ [getPropString (VTree.node tp props cs) (s2l "name")]))
      (cs ++ []) [] [] []
      = processChildren (stack ++ [getPropString (VTree.node tp props cs) (s2l "name")])
          (join (s2l "/") (stack ++ [getPropString (VTree.node tp props cs) (s2l "name")]))
          [] ([] ++ srcPathsOf cs) ([] ++ dncPathsOf cs) ([] ++ resPathsOf cs) :=
    processChildren_fileRun _ _ cs hall [] [] [] []
  rw [List.append_nil] at h0
  rw [h0, processChildren_nil]
  simp

/-- C2: a nested-group child flushes the lists accumulated over the
preceding run of FILE children as blocks under the parent's full group
name, clears the accumulators, and only then recurses into the child group,
so the parent's flushed blocks precede all of the subgroup's blocks; and
after the last child the group's remaining accumulated lists are flushed
once more. -/
theorem processGroup_flush_order (stack : List Str) (tp : Str) (props : List (Str × Str))
    (cs₁ : List VTree) (g₂ : VTree) (cs₃ : List VTree)
    (h₁ : ∀ c ∈ cs₁, isFileNode c = true) (hg : isFileNode g₂ = false) :
    (processGroup stack (VTree.node tp props (cs₁ ++ g₂ :: cs₃))
        = writeFileGroups
              (join (s2l "/")
                (stack ++ [getPropString (VTree.node tp props (cs₁ ++ g₂ :: cs₃)) (s2l "name")]))
              (srcPathsOf cs₁) (dncPathsOf cs₁) (resPathsOf cs₁)
            ++ processGroup
                (stack ++ [getPropString (VTree.node tp props (cs₁ ++ g₂ :: cs₃)) (s2l "name")])
                g₂
            ++ processChildren
                (stack ++ [getPropString (VTree.node tp props (cs₁ ++ g₂ :: cs₃)) (s2l "name")])
                (join (s2l "/")
                  (stack
                    ++ [getPropString (VTree.node tp props (cs₁ ++ g₂ :: cs₃)) (s2l "name")]))
                cs₃ [] [] [])
      ∧ ∀ cs : List VTree, (∀ c ∈ cs, isFileNode c = true) →
          processGroup stack (VTree.node tp props cs)
            = writeFileGroups
                (join (s2l "/")
                  (stack ++ [getPropString (VTree.node tp props cs) (s2l "name")]))
                (srcPathsOf cs) (dncPathsOf cs) (resPathsOf cs) := by
  constructor
  · rw [processGroup_unfold]
    rw [show childrenOf (VTree.node tp props (cs₁ ++ g₂ :: cs₃)) = cs₁ ++ g₂ :: cs₃ from rfl]
    rw [processChildren_fileRun _ _ cs₁ h₁ (g₂ :: cs₃) [] [] []]
    rw [processChildren_group_cons _ _ _ _ _ _ _ hg]
    simp
  · exact fun cs hall => processGroup_allFiles stack tp props cs hall

/-- Example FILE node: a.cpp, compile="1", no resource property. -/
def exFileA : VTree :=
  VTree.node (s2l "FILE") [(s2l "file", s2l "a.cpp"), (s2l "compile", s2l "1")] []

/-- Example FILE node: b.cpp, compile="1", no resource property. -/
def exFileB : VTree :=
  VTree.node (s2l "FILE") [(s2l "file", s2l "b.cpp"), (s2l "compile", s2l "1")] []

/-- Example group B containing only b.cpp. -/
def exGroupB : VTree := VTree.node (s2l "GROUP") [(s2l "name", s2l "B")] [exFileB]

/-- Example group A whose children are a.cpp and then the nested group B. -/
def exGroupC : VTree :=
  VTree.node (s2l "GROUP") [(s2l "name", s2l "A")] [exFileA, exGroupB]

theorem processGroup_flush_order_witness :
    (∀ c ∈ [exFileA], isFileNode c = true)
      ∧ isFileNode exGroupB = false
      ∧ processGroup [] exGroupC
          = writeFileGroups (s2l "A") (srcPathsOf [exFileA]) (dncPathsOf [exFileA])
              (resPathsOf [exFileA])
            ++ processGroup [s2l "A"] exGroupB
            ++ processChildren [s2l "A"] (s2l "A") [] [] [] [] :=
  ⟨by decide, by decide,
    (processGroup_flush_order [] (s2l "GROUP") [(s2l "name", s2l "A")] [exFileA] exGroupB []
        (by decide) (by decide)).1⟩

/-- C1 (amended): for every non-resource FILE entry with cpp-extension path
in a group of FILE children, the path is appended to the standard file
list; when the entry's compile property converts to the integer 0 — which
includes the case of an absent compile property — the path is also appended
to the header-only list; when the compile property converts to a nonzero
integer (such as 1) the entry is never among those appended to the
header-only list; and the group's emitted block carries exactly these
lists. -/
theorem fileEntry_cpp_classification (stack : List Str) (tp : Str)
    (props : List (Str × Str)) (cs : List VTree)
    (hall : ∀ c ∈ cs, isFileNode c = true) (c : VTree) (hmem : c ∈ cs)
    (hres : isResourceEntry c = false)
    (hcpp : hasFileExtensionCpp (filePathOf c) = true) :
    filePathOf c ∈ srcPathsOf cs
      ∧ (getPropInt c (s2l "compile") = 0 → filePathOf c ∈ dncPathsOf cs)
      ∧ (getPropInt c (s2l "compile") ≠ 0 →
          c ∉ cs.filter (fun x => isFileNode x && !isResourceEntry x && isDncEntry x))
      ∧ processGroup stack (VTree.node tp props cs)
          = writeFileGroups
              (join (s2l "/") (stack ++ [getPropString (VTree.node tp props cs) (s2l "name")]))
              (srcPathsOf cs) (dncPathsOf cs) (resPathsOf cs) := by
  refine ⟨?_, fun h0 => ?_, fun hne => ?_, processGroup_allFiles stack tp props cs hall⟩
  · exact List.mem_map_of_mem filePathOf
      (List.mem_filter.mpr ⟨hmem, by simp [hall c hmem, hres]⟩)
  · have hdnc : isDncEntry c = true := by simp [isDncEntry, hcpp, h0]
    exact List.mem_map_of_mem filePathOf
      (List.mem_filter.mpr ⟨hmem, by simp [hall c hmem, hres, hdnc]⟩)
  · intro hin
    have hdnc : isDncEntry c = false := by
      simp only [isDncEntry, Bool.and_eq_false_iff]
      right
      simpa using hne
    have := (List.mem_filter.mp hin).2
    simp [hdnc] at this

theorem fileEntry_cpp_classification_witness :
    (∀ c ∈ [exFileA], isFileNode c = true)
      ∧ exFileA ∈ [exFileA]
      ∧ isResourceEntry exFileA = false
      ∧ hasFileExtensionCpp (filePathOf exFileA) = true
      ∧ (filePathOf exFileA ∈ srcPathsOf [exFileA]
          ∧ (getPropInt exFileA (s2l "compile") = 0 → filePathOf exFileA ∈ dncPathsOf [exFileA])
          ∧ (getPropInt exFileA (s2l "compile") ≠ 0 →
              exFileA ∉ List.filter (fun x => isFileNode x && !isResourceEntry x && isDncEntry x)
                  [exFileA])
          ∧ processGroup [] (VTree.node (s2l "GROUP") [(s2l "name", s2l "A")] [exFileA])
              = writeFileGroups
                  (join (s2l "/")
                    ([]
                      ++ [getPropString (VTree.node (s2l "GROUP") [(s2l "name", s2l "A")]
                            [exFileA]) (s2l "name")]))
                  (srcPathsOf [exFileA]) (dncPathsOf [exFileA]) (resPathsOf [exFileA])) :=
  ⟨by decide, List.mem_cons_self _ _, by decide, by decide,
    fileEntry_cpp_classification [] (s2l "GROUP") [(s2l "name", s2l "A")] [exFileA] (by decide)
      exFileA (List.mem_cons_self _ _) (by decide) (by decide)⟩

/-- FILE node with a cpp path and neither a compile nor a resource
property. -/
def cxFile : VTree := VTree.node (s2l "FILE") [(s2l "file", s2l "a.cpp")] []

/-- Group containing only cxFile. -/
def cxGroup : VTree := VTree.node (s2l "GROUP") [(s2l "name", s2l "G")] [cxFile]

/-- C1 counterexample: a non-resource .cpp FILE entry with an absent
compile property is appended to the header-only list as well (the absent
property converts to the integer 0), contradicting the claim that such an
entry is never appended to the header-only list. -/
theorem fileEntry_absent_compile_counterexample :
    hasProperty cxFile (s2l "compile") = false
      ∧ isResourceEntry cxFile = false
      ∧ hasFileExtensionCpp (filePathOf cxFile) = true
      ∧ processGroup [] cxGroup = [Block.files (s2l "G") [s2l "a.cpp"] [s2l "a.cpp"]]
      ∧ dncPathsOf [cxFile] = [s2l "a.cpp"] := by
  refine ⟨by decide, by decide, by decide, ?_, by decide⟩
  have h := processGroup_allFiles [] (s2l "GROUP") [(s2l "name", s2l "G")] [cxFile] (by decide)
  rw [show cxGroup = VTree.node (s2l "GROUP") [(s2l "name", s2l "G")] [cxFile] from rfl, h]
  decide

mutual

/-- The name chains (within this subtree, starting at its root) of all
groups reachable by descending through non-FILE children. -/
def descGroupPaths (g : VTree) : List (List Str) :=
  [getPropString g (s2l "name")]
    :: (descGroupPathsF (childrenOf g)).map (fun p => getPropString g (s2l "name") :: p)
termination_by sizeOf g
decreasing_by
  exact sizeOf_childrenOf_lt g

/-- descGroupPaths over a forest of children: FILE children contribute no
group chains. -/
def descGroupPathsF : List VTree → List (List Str)
  | [] => []
  | c :: rest =>
    (if isFileNode c = true then [] else descGroupPaths c) ++ descGroupPathsF rest
termination_by cs => sizeOf cs
decreasing_by
  · simp only [List.cons.sizeOf_spec]
    omega
  · simp only [List.cons.sizeOf_spec]
    omega

end

theorem descGroupPaths_unfold (g : VTree) :
    descGroupPaths g
      = [getPropString g (s2l "name")]
          :: (descGroupPathsF (childrenOf g)).map (fun p => getPropString g (s2l "name") :: p) := by
  rw [descGroupPaths]

theorem descGroupPathsF_cons (c : VTree) (rest : List VTree) :
    descGroupPathsF (c :: rest)
      = (if isFileNode c = true then [] else descGroupPaths c) ++ descGroupPathsF rest := by
  rw [descGroupPathsF]

theorem descAuxChildren :
    ∀ (cs : List VTree) (stack' : List Str) (f d r : List Str) (b : Block),
      (∀ c ∈ cs, ∀ (stack₂ : List Str) (b₂ : Block), b₂ ∈ processGroup stack₂ c →
          ∃ p ∈ descGroupPaths c, blockName b₂ = join (s2l "/") (stack₂ ++ p)) →
      b ∈ processChildren stack' (join (s2l "/") stack') cs f d r →
      blockName b = join (s2l "/") stack'
        ∨ ∃ p ∈ descGroupPathsF cs, blockName b = join (s2l "/") (stack' ++ p) := by
  intro cs
  induction cs with
  | nil =>
    intro stack' f d r b _ hb
    rw [processChildren_nil] at hb
    exact Or.inl (blockName_writeFileGroups _ _ _ _ _ hb)
  | cons c rest ih =>
    intro stack' f d r b hIH hb
    have hIHrest : ∀ c' ∈ rest, ∀ (stack₂ : List Str) (b₂ : Block),
        b₂ ∈ processGroup stack₂ c' →
        ∃ p ∈ descGroupPaths c', blockName b₂ = join (s2l "/") (stack₂ ++ p) :=
      fun c' hc' => hIH c' (List.mem_cons_of_mem _ hc')
    by_cases hc : isFileNode c = true
    · rw [processChildren_file_cons _ _ _ _ _ _ _ hc] at hb
      have hF : descGroupPathsF (c :: rest) = descGroupPathsF rest := by
        rw [descGroupPathsF_cons, if_pos hc, List.nil_append]
      by_cases hres : isResourceEntry c = true
      · rw [if_pos hres] at hb
        rcases ih stack' _ _ _ b hIHrest hb with h | ⟨p, hp, hname⟩
        · exact Or.inl h
        · exact Or.inr ⟨p, by rw [hF]; exact hp, hname⟩
      · rw [if_neg hres] at hb
        rcases ih stack' _ _ _ b hIHrest hb with h | ⟨p, hp, hname⟩
        · exact Or.inl h
        · exact Or.inr ⟨p, by rw [hF]; exact hp, hname⟩
    · have hF : descGroupPathsF (c :: rest) = descGroupPaths c ++ descGroupPathsF rest := by
        rw [descGroupPathsF_cons, if_neg hc]
      rw [processChildren_group_cons _ _ _ _ _ _ _ (Bool.eq_false_iff.mpr hc)] at hb
      rcases List.mem_append.mp hb with hb1 | hb2
      · rcases List.mem_append.mp hb1 with hb3 | hb4
        · exact Or.inl (blockName_writeFileGroups _ _ _ _ _ hb3)
        · obtain ⟨p, hp, hname⟩ := hIH c (List.mem_cons_self c rest) stack' b hb4
          refine Or.inr ⟨p, ?_, hname⟩
          rw [hF]
          exact List.mem_append_left _ hp
      · rcases ih stack' [] [] [] b hIHrest hb2 with h | ⟨p, hp, hname⟩
        · exact Or.inl h
        · refine Or.inr ⟨p, ?_, hname⟩
          rw [hF]
          exact List.mem_append_right _ hp

theorem descAuxMain :
    ∀ (n : Nat) (g : VTree) (stack : List Str), sizeOf g ≤ n →
      ∀ b ∈ processGroup stack g,
        ∃ p ∈ descGroupPaths g, blockName b = join (s2l "/") (stack ++ p) := by
  intro n
  induction n with
  | zero =>
    intro g stack hsz
    exfalso
    cases g with
    | node tp props cs =>
      simp only [VTree.node.sizeOf_spec] at hsz
      omega
  | succ n ih =>
    intro g stack hsz b hb
    cases g with
    | node tp props cs =>
      rw [processGroup_unfold] at hb
      rw [show childrenOf (VTree.node tp props cs) = cs from rfl] at hb
      have hIH : ∀ c ∈ cs, ∀ (stack₂ : List Str) (b₂ : Block), b₂ ∈ processGroup stack₂ c →
          ∃ p ∈ descGroupPaths c, blockName b₂ = join (s2l "/") (stack₂ ++ p) := by
        intro c hcmem stack₂ b₂ hb₂
        refine ih c stack₂ ?_ b₂ hb₂
        have h2 := List.sizeOf_lt_of_mem hcmem
        simp only [VTree.node.sizeOf_spec] at hsz
        omega
      rcases descAuxChildren cs
          (stack ++ [getPropString (VTree.node tp props cs) (s2l "name")]) [] [] [] b hIH hb with
        h | ⟨p, hp, hname⟩
      · refine ⟨[getPropString (VTree.node tp props cs) (s2l "name")], ?_, h⟩
        rw [descGroupPaths_unfold]
        exact List.mem_cons_self _ _
      · refine ⟨getPropString (VTree.node tp props cs) (s2l "name") :: p, ?_, ?_⟩
        · rw [descGroupPaths_unfold]
          exact List.mem_cons_of_mem _ (List.mem_map_of_mem _ hp)
        · rw [List.append_assoc, List.singleton_append] at hname
          exact hname

/-- Example group A whose children are the nested group B and then
a.cpp: entering A then B yields full name "A/B"; back at A, the final
flush is keyed "A". -/
def exGroupA : VTree :=
  VTree.node (s2l "GROUP") [(s2l "name", s2l "A")] [exGroupB, exFileA]

theorem exGroupA_blocks :
    processGroup [] exGroupA
      = [Block.files (s2l "A/B") [s2l "b.cpp"] [], Block.files (s2l "A") [s2l "a.cpp"] []] := by
  rw [processGroup_unfold]
  rw [show childrenOf exGroupA = [exGroupB, exFileA] from rfl]
  rw [processChildren_group_cons _ _ _ _ _ _ _ (by decide)]
  rw [show exGroupB = VTree.node (s2l "GROUP") [(s2l "name", s2l "B")] [exFileB] from rfl]
  rw [processGroup_allFiles _ (s2l "GROUP") [(s2l "name", s2l "B")] [exFileB] (by decide)]
  rw [processChildren_file_cons _ _ _ _ _ _ _ (by decide)]
  rw [if_neg (by decide)]
  rw [processChildren_nil]
  decide

/-- C4: every block emitted while a group is current is keyed by the
`/`-join of the group names from the root to that group (the paths listed
by descGroupPaths, prefixed by the ambient stack); in the concrete example,
entering A then B yields the full name "A/B", and back at A the final block
is keyed "A". -/
theorem fullGroupName_invariant (stack : List Str) (g : VTree) (b : Block)
    (hb : b ∈ processGroup stack g) :
    (∃ p ∈ descGroupPaths g, blockName b = join (s2l "/") (stack ++ p))
      ∧ processGroup [] exGroupA
          = [Block.files (s2l "A/B") [s2l "b.cpp"] [], Block.files (s2l "A") [s2l "a.cpp"] []] :=
  ⟨descAuxMain (sizeOf g) g stack le_rfl b hb, exGroupA_blocks⟩

theorem fullGroupName_invariant_witness :
    Block.files (s2l "A/B") [s2l "b.cpp"] [] ∈ processGroup [] exGroupA
      ∧ ((∃ p ∈ descGroupPaths exGroupA,
            blockName (Block.files (s2l "A/B") [s2l "b.cpp"] []) = join (s2l "/") ([] ++ p))
          ∧ processGroup [] exGroupA
              = [Block.files (s2l "A/B") [s2l "b.cpp"] [],
                  Block.files (s2l "A") [s2l "a.cpp"] []]) :=
  ⟨by rw [exGroupA_blocks]; exact List.mem_cons_self _ _,
    fullGroupName_invariant [] exGroupA (Block.files (s2l "A/B") [s2l "b.cpp"] [])
      (by rw [exGroupA_blocks]; exact List.mem_cons_self _ _)⟩

/-- The usage line printed to std::cerr when argc is not 3 (main.cpp lines
104-111). -/
def usageMessage : Str := s2l "usage: Jucer2CMake <jucer_project_file> <Reprojucer.cmake_file>"

/-- printError from main.cpp (lines 32-35): one `error: <message>` line on
the error stream. -/
def printError (error : Str) : Str := s2l "error: " ++ error

/-- The inputs determining main's exit status and error-stream output: the
argument count, the first positional argument, and the result of
XmlDocument::parse on it (`none` when the file is unreadable or not XML). -/
structure CliInvocation where
  argc : Nat
  jucerFilePath : Str
  parsedXml : Option VTree

/-- ValueTree::fromXml preserves the root element's tag as the tree's
type. -/
def fromXml (xml : VTree) : VTree := xml

/-- The exit status and error-stream lines of main (main.cpp lines
102-131 and the final return 0): wrong argument count prints the usage
line and exits 1; an unparsable document or one whose root tag is not
JUCERPROJECT prints an `error:` line and exits 1; otherwise the
translation runs and main returns 0 (the translation itself writes only to
CMakeLists.txt, never to the error stream). -/
def mainRun (inv : CliInvocation) : Nat × List Str :=
  if inv.argc ≠ 3 then (1, [usageMessage])
  else
    match inv.parsedXml with
    | none => (1, [printError (inv.jucerFilePath ++ s2l " is not a valid Jucer project.")])
    | some xml =>
      if ¬hasType xml (s2l "JUCERPROJECT") = true then
        (1, [printError (inv.jucerFilePath ++ s2l " is not a valid Jucer project.")])
      else if ¬hasType (fromXml xml) (s2l "JUCERPROJECT") = true then
        (1, [printError (inv.jucerFilePath ++ s2l " is not a valid Jucer project.")])
      else (0, [])

/-- C3 counterexample: with 1 argument besides the program name (argc = 2),
main prints a single line to the error stream and exits 1, but that line is
the usage line, which does not have the form `error: <message>`. -/
theorem mainRun_usage_counterexample :
    mainRun ⟨2, s2l "p.jucer", none⟩ = (1, [usageMessage])
      ∧ leadsWith (s2l "error: ") usageMessage = false := by
  constructor
  · rfl
  · decide

/-- C3 (amended): when the argument count differs from the required two
positional arguments (argc ≠ 3), main prints the single usage line
`usage: Jucer2CMake <jucer_project_file> <Reprojucer.cmake_file>` to the
error stream and exits with status 1 (the `error: <message>` form is used
for the invalid-project case); on success it exits with status 0 and
writes nothing to the error stream. -/
theorem mainRun_spec (inv : CliInvocation) :
    (inv.argc ≠ 3 → mainRun inv = (1, [usageMessage]))
      ∧ (∀ xml : VTree, inv.argc = 3 → inv.parsedXml = some xml →
          hasType xml (s2l "JUCERPROJECT") = true → mainRun inv = (0, []))
      ∧ (inv.argc = 3 → inv.parsedXml = none →
          mainRun inv
            = (1, [printError (inv.jucerFilePath ++ s2l " is not a valid Jucer project.")])) := by
  refine ⟨fun h => ?_, fun xml h3 hx ht => ?_, fun h3 hn => ?_⟩
  · rw [mainRun, if_pos h]
  · rw [mainRun, if_neg (by simp [h3]), hx]
    simp only [fromXml, ht]
    simp
  · rw [mainRun, if_neg (by simp [h3]), hn]

theorem mainRun_spec_witness :
    mainRun ⟨2, s2l "p.jucer", none⟩ = (1, [usageMessage])
      ∧ mainRun ⟨3, s2l "p.jucer", some (VTree.node (s2l "JUCERPROJECT") [] [])⟩ = (0, []) :=
  ⟨(mainRun_spec ⟨2, s2l "p.jucer", none⟩).1 (by decide),
    (mainRun_spec ⟨3, s2l "p.jucer", some (VTree.node (s2l "JUCERPROJECT") [] [])⟩).2.1
      (VTree.node (s2l "JUCERPROJECT") [] []) rfl rfl (by decide)⟩

/-- main.cpp lines 201-208: the projectType → PROJECT_TYPE description
mapping, empty for any other value. -/
def projectTypeDescription (projectType : Str) : Str :=
  if projectType = s2l "guiapp" then s2l "GUI Application"
  else if projectType = s2l "consoleapp" then s2l "Console Application"
  else if projectType = s2l "library" then s2l "Static Library"
  else if projectType = s2l "audioplug" then s2l "Audio Plug-in"
  else []

/-- The ten argument lines of the jucer_project_settings block (main.cpp
lines 210-222), in emission order. -/
def jucerProjectSettings (jucerProject : VTree) : List Str :=
  [getSetting jucerProject (s2l "PROJECT_NAME") (s2l "name"),
    getSetting jucerProject (s2l "PROJECT_VERSION") (s2l "version"),
    getSetting jucerProject (s2l "COMPANY_NAME") (s2l "companyName"),
    getSetting jucerProject (s2l "COMPANY_WEBSITE") (s2l "companyWebsite"),
    getSetting jucerProject (s2l "COMPANY_EMAIL") (s2l "companyEmail"),
    s2l "PROJECT_TYPE \""
      ++ projectTypeDescription (getPropString jucerProject (s2l "projectType")) ++ s2l "\"",
    getSetting jucerProject (s2l "BUNDLE_IDENTIFIER") (s2l "bundleIdentifier"),
    s2l "BINARYDATACPP_SIZE_LIMIT \"Default\"",
    getSetting jucerProject (s2l "BINARYDATA_NAMESPACE") (s2l "binaryDataNamespace"),
    getSetting jucerProject (s2l "PREPROCESSOR_DEFINITIONS") (s2l "defines")]

/-- C9: the eighth argument line of the jucer_project_settings block is the
literal `BINARYDATACPP_SIZE_LIMIT "Default"` for every project document: it
is emitted unconditionally and does not depend on any property of the
tree. -/
theorem binaryDataCppSizeLimit_constant (jucerProject : VTree) :
    (jucerProjectSettings jucerProject).get? 7
      = some (s2l "BINARYDATACPP_SIZE_LIMIT \"Default\"") := rfl

/-- The fixed allow-list of eight macOS SDK strings (main.cpp lines
506-513). -/
def sdks : List Str :=
  [s2l "10.5 SDK", s2l "10.6 SDK", s2l "10.7 SDK", s2l "10.8 SDK", s2l "10.9 SDK",
    s2l "10.10 SDK", s2l "10.11 SDK", s2l "10.12 SDK"]

/-- main.cpp lines 515-528: the OSX_BASE_SDK_VERSION line of an XCODE_MAC
configuration block. -/
def osxBaseSdkVersionLine (configuration : VTree) : Str :=
  let osxSDK := getPropString configuration (s2l "osxSDK")
  if osxSDK = s2l "default" then s2l "OSX_BASE_SDK_VERSION \"Use Default\""
  else if osxSDK ∈ sdks then s2l "OSX_BASE_SDK_VERSION \"" ++ osxSDK ++ s2l "\""
  else s2l "# OSX_BASE_SDK_VERSION"

/-- main.cpp lines 530-544: the OSX_DEPLOYMENT_TARGET line of an XCODE_MAC
configuration block; an allow-list member is emitted with its last four
characters (" SDK") removed, via substr(0, length - 4). -/
def osxDeploymentTargetLine (configuration : VTree) : Str :=
  let c := getPropString configuration (s2l "osxCompatibility")
  if c = s2l "default" then s2l "OSX_DEPLOYMENT_TARGET \"Use Default\""
  else if c ∈ sdks then
    s2l "OSX_DEPLOYMENT_TARGET \"" ++ c.take (c.length - 4) ++ s2l "\""
  else s2l "# OSX_DEPLOYMENT_TARGET"

/-- main.cpp line 504: the two validated SDK lines are emitted only when
the exporter's type is XCODE_MAC. -/
def xcodeSdkLines (exporterType : Str) (configuration : VTree) : List Str :=
  if exporterType = s2l "XCODE_MAC" then
    [osxBaseSdkVersionLine configuration, osxDeploymentTargetLine configuration]
  else []

/-- C6: for XCODE_MAC configurations, the exact value "default" maps to
"Use Default" for either field; an allow-list member is passed through
unchanged for the version field and has its trailing 4-character " SDK"
suffix stripped for the deployment-target field; any other value yields the
commented placeholder for that field; both formatters are total, so no
value causes a failure. -/
theorem osxSdk_validation (configuration : VTree) :
    (getPropString configuration (s2l "osxSDK") = s2l "default" →
        osxBaseSdkVersionLine configuration = s2l "OSX_BASE_SDK_VERSION \"Use Default\"")
      ∧ (getPropString configuration (s2l "osxSDK") ∈ sdks →
          osxBaseSdkVersionLine configuration
            = s2l "OSX_BASE_SDK_VERSION \"" ++ getPropString configuration (s2l "osxSDK")
                ++ s2l "\"")
      ∧ (getPropString configuration (s2l "osxSDK") ≠ s2l "default" →
          getPropString configuration (s2l "osxSDK") ∉ sdks →
          osxBaseSdkVersionLine configuration = s2l "# OSX_BASE_SDK_VERSION")
      ∧ (getPropString configuration (s2l "osxCompatibility") = s2l "default" →
          osxDeploymentTargetLine configuration = s2l "OSX_DEPLOYMENT_TARGET \"Use Default\"")
      ∧ (getPropString configuration (s2l "osxCompatibility") ∈ sdks →
          osxDeploymentTargetLine configuration
            = s2l "OSX_DEPLOYMENT_TARGET \""
                ++ (getPropString configuration (s2l "osxCompatibility")).take
                    ((getPropString configuration (s2l "osxCompatibility")).length - 4)
                ++ s2l "\"")
      ∧ (getPropString configuration (s2l "osxCompatibility") ≠ s2l "default" →
          getPropString configuration (s2l "osxCompatibility") ∉ sdks →
          osxDeploymentTargetLine configuration = s2l "# OSX_DEPLOYMENT_TARGET")
      ∧ (∀ v ∈ sdks, v.take (v.length - 4) ++ s2l " SDK" = v)
      ∧ xcodeSdkLines (s2l "XCODE_MAC") configuration
          = [osxBaseSdkVersionLine configuration, osxDeploymentTargetLine configuration] := by
  have hnd : ∀ v ∈ sdks, v ≠ s2l "default" := by decide
  refine ⟨fun h => ?_, fun hm => ?_, fun hd hm => ?_, fun h => ?_, fun hm => ?_,
    fun hd hm => ?_, by decide, by rw [xcodeSdkLines, if_pos rfl]⟩
  · rw [osxBaseSdkVersionLine, if_pos h]
  · rw [osxBaseSdkVersionLine, if_neg (hnd _ hm), if_pos hm]
  · rw [osxBaseSdkVersionLine, if_neg hd, if_neg hm]
  · rw [osxDeploymentTargetLine, if_pos h]
  · rw [osxDeploymentTargetLine, if_neg (hnd _ hm), if_pos hm]
  · rw [osxDeploymentTargetLine, if_neg hd, if_neg hm]

/-- Example XCODE_MAC configuration with osxSDK and osxCompatibility both
"10.9 SDK". -/
def exXcodeConfig : VTree :=
  VTree.node (s2l "CONFIGURATION")
    [(s2l "osxSDK", s2l "10.9 SDK"), (s2l "osxCompatibility", s2l "10.9 SDK")] []

theorem osxSdk_validation_witness :
    getPropString exXcodeConfig (s2l "osxSDK") ∈ sdks
      ∧ getPropString exXcodeConfig (s2l "osxCompatibility") ∈ sdks
      ∧ osxBaseSdkVersionLine exXcodeConfig
          = s2l "OSX_BASE_SDK_VERSION \"" ++ getPropString exXcodeConfig (s2l "osxSDK")
              ++ s2l "\""
      ∧ osxDeploymentTargetLine exXcodeConfig
          = s2l "OSX_DEPLOYMENT_TARGET \""
              ++ (getPropString exXcodeConfig (s2l "osxCompatibility")).take
                  ((getPropString exXcodeConfig (s2l "osxCompatibility")).length - 4)
              ++ s2l "\"" :=
  ⟨by decide, by decide, (osxSdk_validation exXcodeConfig).2.1 (by decide),
    (osxSdk_validation exXcodeConfig).2.2.2.2.1 (by decide)⟩

/-- The loop of main.cpp lines 484-495: walk the split segments in order,
skip empty ones and resolve each remaining one.  The composite juce::File
computation targetProjectDir.getChildFile(path).getRelativePathFrom(
jucerFileDir) is the out-of-scope filesystem primitive, abstracted as the
function `resolve`. -/
def collectHeaderPaths (resolve : Str → Str) : List Str → List Str
  | [] => []
  | p :: rest =>
    if p = [] then collectHeaderPaths resolve rest
    else resolve p :: collectHeaderPaths resolve rest

/-- main.cpp lines 470-499: the HEADER_SEARCH_PATHS line of one
configuration block: placeholder when the raw property is empty, otherwise
the newline-join of the resolved non-empty segments, backslash-escaped,
wrapped in quotes. -/
def headerSearchPathsLine (resolve : Str → Str) (configuration : VTree) : Str :=
  let headerPath := getPropString configuration (s2l "headerPath")
  if headerPath = [] then s2l "# HEADER_SEARCH_PATHS"
  else
    s2l "HEADER_SEARCH_PATHS \""
      ++ escape ['\\']
          (join (s2l "\n") (collectHeaderPaths resolve (split (s2l "\n") headerPath)))
      ++ s2l "\""

theorem collectHeaderPaths_eq (resolve : Str → Str) :
    ∀ ps : List Str,
      collectHeaderPaths resolve ps = (ps.filter (fun p => !p.isEmpty)).map resolve := by
  intro ps
  induction ps with
  | nil => rfl
  | cons p rest ih =>
    by_cases hp : p = []
    · subst hp
      simp only [collectHeaderPaths, if_pos rfl, List.filter_cons, List.isEmpty_nil,
        Bool.not_true, ih]
      simp
    · have hp' : p.isEmpty = false := by
        cases p with
        | nil => exact absurd rfl hp
        | cons a as => rfl
      simp only [collectHeaderPaths, if_neg hp, List.filter_cons, hp', Bool.not_false,
        if_pos rfl, List.map_cons, ih]
      simp

theorem split_incs_example :
    split (s2l "\n") (s2l "inc1\n\ninc2") = [s2l "inc1", [], s2l "inc2"] := by
  rw [split_some (s2l "\n") (s2l "inc1\n\ninc2") 4 (by decide) (by decide)]
  rw [show (s2l "inc1\n\ninc2").take 4 = s2l "inc1" from rfl]
  rw [show (s2l "inc1\n\ninc2").drop (4 + (s2l "\n").length) = s2l "\ninc2" from rfl]
  rw [split_some (s2l "\n") (s2l "\ninc2") 0 (by decide) (by decide)]
  rw [show (s2l "\ninc2").take 0 = ([] : Str) from rfl]
  rw [show (s2l "\ninc2").drop (0 + (s2l "\n").length) = s2l "inc2" from rfl]
  rw [split_none (s2l "\n") (s2l "inc2") (by decide)]

/-- C7: an empty raw header-search-paths property yields the commented
placeholder; a non-empty one is split on newline, empty segments are
skipped, the remaining segments are resolved (abstract filesystem
primitive) and rejoined with newline, then backslash-escaped; the raw value
"inc1\n\ninc2" yields exactly the two resolved entries, the empty middle
segment being skipped. -/
theorem headerSearchPaths_spec (resolve : Str → Str) (configuration : VTree)
    (hne : getPropString configuration (s2l "headerPath") ≠ []) :
    headerSearchPathsLine resolve configuration
        = s2l "HEADER_SEARCH_PATHS \""
            ++ escape ['\\']
                (join (s2l "\n")
                  (((split (s2l "\n") (getPropString configuration (s2l "headerPath"))).filter
                      (fun p => !p.isEmpty)).map resolve))
            ++ s2l "\""
      ∧ (∀ c₂ : VTree, getPropString c₂ (s2l "headerPath") = [] →
          headerSearchPathsLine resolve c₂ = s2l "# HEADER_SEARCH_PATHS")
      ∧ (getPropString configuration (s2l "headerPath") = s2l "inc1\n\ninc2" →
          collectHeaderPaths resolve
              (split (s2l "\n") (getPropString configuration (s2l "headerPath")))
            = [resolve (s2l "inc1"), resolve (s2l "inc2")]) := by
  refine ⟨?_, fun c₂ h₂ => ?_, fun hraw => ?_⟩
  · rw [headerSearchPathsLine]
    simp only [if_neg hne]
    rw [collectHeaderPaths_eq]
  · rw [headerSearchPathsLine]
    simp only [if_pos h₂]
  · rw [hraw, split_incs_example]
    simp only [collectHeaderPaths]
    rw [if_neg (show ¬s2l "inc1" = [] from by decide)]
    simp [show ¬s2l "inc2" = [] from by decide]

/-- Example configuration whose headerPath is "inc1\n\ninc2". -/
def exHeaderConfig : VTree :=
  VTree.node (s2l "CONFIGURATION") [(s2l "headerPath", s2l "inc1\n\ninc2")] []

theorem headerSearchPaths_spec_witness :
    getPropString exHeaderConfig (s2l "headerPath") ≠ []
      ∧ (headerSearchPathsLine (fun p => p) exHeaderConfig
            = s2l "HEADER_SEARCH_PATHS \""
                ++ escape ['\\']
                    (join (s2l "\n")
                      (((split (s2l "\n")
                            (getPropString exHeaderConfig (s2l "headerPath"))).filter
                          (fun p => !p.isEmpty)).map (fun p => p)))
                ++ s2l "\""
          ∧ (∀ c₂ : VTree, getPropString c₂ (s2l "headerPath") = [] →
              headerSearchPathsLine (fun p => p) c₂ = s2l "# HEADER_SEARCH_PATHS")
          ∧ (getPropString exHeaderConfig (s2l "headerPath") = s2l "inc1\n\ninc2" →
              collectHeaderPaths (fun p => p)
                  (split (s2l "\n") (getPropString exHeaderConfig (s2l "headerPath")))
                = [s2l "inc1", s2l "inc2"])) :=
  ⟨by decide, headerSearchPaths_spec (fun p => p) exHeaderConfig (by decide)⟩

end Jucer2CMake
